import Mathlib

/-!
Verification development for the Amazon-Affiliate-Bot repository.

The relevant Python source is shallowly embedded over `List Char`:
strings are lists of characters, the `re`-based helpers of
`src/bot/utils/amazon.py` are modelled as character-list scanners with
the same leftmost, non-overlapping substitution semantics as `re.sub`,
and the per-message pipeline of
`src/bot/handlers/message_handler.py` is modelled as a pure function
over an explicit dedup-store state.  Case-insensitive matching
(`re.I`) is modelled via ASCII `Char.toLower` folding; the extra
Unicode foldings of Python's `re.IGNORECASE` (e.g. U+212A) are not
modelled, and none of the statements below depend on them.

Scanners that resume after a removed segment are not structurally
recursive, so they are defined with an explicit fuel argument (the
kernel can then evaluate them on concrete inputs); fuel-irrelevance
lemmas recover the natural unfolding equations.
-/

namespace AffBot

/-- Case-insensitive character equality, the embedding of `re.I`
matching for a single ASCII character. -/
def chEq (a b : Char) : Bool := a.toLower == b.toLower

/-- Case-insensitive "the pattern `p` is a prefix of `l`", used to model a
literal (case-insensitive) regex fragment matching at a position. -/
def prefCI : List Char → List Char → Bool
  | [], _ => true
  | _ :: _, [] => false
  | p :: ps, c :: cs => chEq p c && prefCI ps cs

/-- The literal fragment `tag=` of the pattern `([?&])tag=[^&]*`. -/
def tagPat : List Char := ['t', 'a', 'g', '=']

/-- The literal fragment `utm_` of the pattern `([?&])utm_[^=]+=[^&]*`. -/
def utmPat : List Char := ['u', 't', 'm', '_']

/-- Model of the greedy value part `[^&]*` of both tracking patterns:
after a match, `re.sub` resumes scanning at the first `&` (kept) or at
the end of the string. -/
def dropVal (l : List Char) : List Char := l.dropWhile (fun c => !(c == '&'))

/-- Model of the name-and-equals part `[^=]+=` of the `utm_` pattern:
the remainder of the string after the first `=`. -/
def afterEq (l : List Char) : List Char := (l.dropWhile (fun c => !(c == '='))).drop 1

/-- Whether `[^=]+=[^&]*` matches at the start of `l`: at least one
non-`=` character followed by an `=` somewhere. -/
def eqCond : List Char → Bool
  | [] => false
  | c :: r => !(c == '=') && r.contains '='

/-- Whether `utm_[^=]+=` matches (case-insensitively on `utm_`) at the
start of `l`. -/
def utmFullAt (l : List Char) : Bool := prefCI utmPat l && eqCond (l.drop 4)

/-- Fuel-based scanner for `re.sub(r'([?&])tag=[^&]*', '', url, flags=re.I)`. -/
def stripTagF : Nat → List Char → List Char
  | 0, _ => []
  | _ + 1, [] => []
  | fuel + 1, c :: r =>
    if (c == '?' || c == '&') && prefCI tagPat r then stripTagF fuel (dropVal (r.drop 4))
    else c :: stripTagF fuel r

/-- Embedding of `re.sub(r'([?&])tag=[^&]*', '', url, flags=re.I)` from
`normalize_url_remove_tracking` in `src/bot/utils/amazon.py`: delete every
leftmost, non-overlapping occurrence of a `?`/`&` followed by `tag=` and a
`&`-free value. -/
def stripTag (l : List Char) : List Char := stripTagF l.length l

/-- Fuel-based scanner for `re.sub(r'([?&])utm_[^=]+=[^&]*', '', url, flags=re.I)`. -/
def stripUtmF : Nat → List Char → List Char
  | 0, _ => []
  | _ + 1, [] => []
  | fuel + 1, c :: r =>
    if (c == '?' || c == '&') && utmFullAt r then stripUtmF fuel (dropVal (afterEq (r.drop 4)))
    else c :: stripUtmF fuel r

/-- Embedding of `re.sub(r'([?&])utm_[^=]+=[^&]*', '', url, flags=re.I)`
from `normalize_url_remove_tracking` in `src/bot/utils/amazon.py`. -/
def stripUtm (l : List Char) : List Char := stripUtmF l.length l

/-- Whether `#.*$` (with `.` not matching a newline and `$` matching at the
end of the string or just before a terminal newline) matches the part of the
string after a `#`; returns the remainder that survives the substitution. -/
def fragTail (rest : List Char) : Option (List Char) :=
  if rest.contains '\n' = false then some []
  else
    match rest.reverse with
    | '\n' :: rr => if rr.contains '\n' then none else some ['\n']
    | _ => none

/-- Embedding of `re.sub(r'#.*$', '', url)` from
`normalize_url_remove_tracking`: remove the fragment starting at the first
`#` from which `.*$` can match. -/
def dropFrag : List Char → List Char
  | [] => []
  | c :: r =>
    if c = '#' then
      match fragTail r with
      | some tail => tail
      | none => c :: dropFrag r
    else c :: dropFrag r

/-- Embedding of `url.rstrip('?&')`: drop trailing `?`/`&` characters. -/
def rstripQA (l : List Char) : List Char :=
  (l.reverse.dropWhile (fun c => c == '?' || c == '&')).reverse

/-- Embedding of `normalize_url_remove_tracking` from
`src/bot/utils/amazon.py`: strip affiliate-tag parameters, valued `utm_`
parameters, the fragment, and a trailing bare `?`/`&`. -/
def normalizeUrl (l : List Char) : List Char :=
  rstripQA (dropFrag (stripUtm (stripTag l)))

/-- Embedding of `replace_amazon_tag` from `src/bot/utils/amazon.py`:
normalize, then append `tag=<affiliate id>` using `&` when the cleaned URL
already contains a `?` and `?` otherwise. -/
def replaceAmazonTag (tag l : List Char) : List Char :=
  let clean := normalizeUrl l
  clean ++ (if clean.contains '?' then '&' else '?') :: ('t' :: 'a' :: 'g' :: '=' :: tag)

/-- Embedding of the draft `replace_amazon_tag` from `src/main.py`
(lines 103-106): same normalization and separator choice, but the f-string
`f"{url}{'&' if '?' in url else '?'}{AFFILIATE_TAG}"` appends the affiliate
identifier without a `tag=` parameter name. -/
def replaceAmazonTagMain (tag l : List Char) : List Char :=
  let u := normalizeUrl l
  u ++ (if u.contains '?' then '&' else '?') :: tag

/-- ASCII alphanumeric test: the character class `[A-Z0-9]` under `re.I`. -/
def isAlnum (c : Char) : Bool :=
  ('A' ≤ c && c ≤ 'Z') || ('a' ≤ c && c ≤ 'z') || ('0' ≤ c && c ≤ '9')

/-- If `l` starts with ten `[A-Z0-9]` (case-insensitive) characters, return
them (the capture group of the ASIN patterns); otherwise `none`. -/
def take10Alnum (l : List Char) : Option (List Char) :=
  let t := l.take 10
  if t.length = 10 && t.all isAlnum then some t else none

/-- The literal path fragment of `/dp/([A-Z0-9]{10})`. -/
def dpPat : List Char := ['/', 'd', 'p', '/']

/-- The literal path fragment of `/gp/product/([A-Z0-9]{10})`. -/
def gpPat : List Char := ['/', 'g', 'p', '/', 'p', 'r', 'o', 'd', 'u', 'c', 't', '/']

/-- The literal fragment `asin=` of `[?&]asin=([A-Z0-9]{10})`. -/
def asinPat : List Char := ['a', 's', 'i', 'n', '=']

/-- `re.search` for a literal path pattern followed by ten alphanumeric
characters: scan left to right, return the first capture. -/
def findPat (p : List Char) : List Char → Option (List Char)
  | [] => none
  | c :: r =>
    if prefCI p (c :: r) then
      match take10Alnum ((c :: r).drop p.length) with
      | some a => some a
      | none => findPat p r
    else findPat p r

/-- `re.search` for `[?&]asin=([A-Z0-9]{10})`. -/
def findAsinQuery : List Char → Option (List Char)
  | [] => none
  | c :: r =>
    if (c == '?' || c == '&') && prefCI asinPat r then
      match take10Alnum (r.drop 5) with
      | some a => some a
      | none => findAsinQuery r
    else findAsinQuery r

/-- The raw (not yet upper-cased) capture of the first ASIN pattern that
matches, in the priority order of `ASIN_PATTERNS` in
`src/bot/utils/amazon.py`. -/
def findAsinRaw (l : List Char) : Option (List Char) :=
  match findPat dpPat l with
  | some a => some a
  | none =>
    match findPat gpPat l with
    | some a => some a
    | none => findAsinQuery l

/-- Embedding of `get_asin` from `src/bot/utils/amazon.py`: the first
matching capture, upper-cased (`m.group(1).upper()`). -/
def getAsin (l : List Char) : Option (List Char) :=
  (findAsinRaw l).map (List.map Char.toUpper)

/-- The Product Identity key derivation of the handler
(`src/bot/handlers/message_handler.py` line 28):
`key = asin or amazon.normalize_url_remove_tracking(url)`. -/
def keyOf (l : List Char) : List Char := (getAsin l).getD (normalizeUrl l)

/-- The scheme part `https?://` of `AMAZON_URL_RE`; greedy on the optional
`s`, so `https://` is tried first. Returns the matched length. -/
def schemeLen (l : List Char) : Option Nat :=
  if prefCI ['h', 't', 't', 'p', 's', ':', '/', '/'] l then some 8
  else if prefCI ['h', 't', 't', 'p', ':', '/', '/'] l then some 7
  else none

/-- The literal fragment `amazon.` of `AMAZON_URL_RE`. -/
def amazonDotPat : List Char := ['a', 'm', 'a', 'z', 'o', 'n', '.']

/-- Whether `[^\s]*amazon\.[^\s/]+[^\s]*` can match the whitespace-free run
`l`: some position carries `amazon.` followed by at least one character that
is not `/` (whitespace-freeness of the run is given). -/
def amazonOk : List Char → Bool
  | [] => false
  | c :: r =>
    (prefCI amazonDotPat (c :: r) &&
      (match (c :: r).drop 7 with
       | [] => false
       | d :: _ => !(d == '/'))) ||
    amazonOk r

/-- One attempt of `AMAZON_URL_RE` at the current position: on success the
match is the scheme plus the whole whitespace-free run after it (the
trailing greedy `[^\s]*` always extends the match to the end of the run),
and scanning resumes after the match. -/
def tryAmzMatch (l : List Char) : Option (List Char × List Char) :=
  match schemeLen l with
  | none => none
  | some n =>
    let rest := l.drop n
    let run := rest.takeWhile (fun c => !c.isWhitespace)
    if amazonOk run then some (l.take (n + run.length), rest.drop run.length) else none

/-- Fuel-based scanner for `AMAZON_URL_RE.findall` (leftmost,
non-overlapping matches). -/
def findUrlsF : Nat → List Char → List (List Char)
  | 0, _ => []
  | _ + 1, [] => []
  | fuel + 1, c :: r =>
    match tryAmzMatch (c :: r) with
    | some (m, rest) => m :: findUrlsF fuel rest
    | none => findUrlsF fuel r

/-- Embedding of `extract_amazon_urls` from `src/bot/utils/amazon.py`:
all matches of `AMAZON_URL_RE` in order of appearance. -/
def findUrls (l : List Char) : List (List Char) := findUrlsF l.length l

/-- Embedding of Python's `text.replace(old, new, 1)`: replace the first
occurrence of `pat` in `s` by `new` (no change when `pat` does not occur). -/
def replaceFirst (s pat new : List Char) : List Char :=
  match s with
  | [] => if pat.isEmpty then new else []
  | c :: r =>
    if pat.isPrefixOf (c :: r) then new ++ (c :: r).drop pat.length
    else c :: replaceFirst r pat new

/-- Embedding of a Python `set.add` on the in-memory key set (membership
order kept as a list; adding an already-present key is a no-op). -/
def addKey (mem : List (List Char)) (k : List Char) : List (List Char) :=
  if mem.contains k then mem else mem ++ [k]

/-- The working state of the per-link loop of
`user_client_message_handler`: the working text, the in-memory dedup set,
the `posted_any` flag, and a count of Shortener Client invocations. -/
structure LoopState where
  text : List Char
  store : List (List Char)
  postedAny : Bool
  shortenCalls : Nat
deriving DecidableEq, Repr

/-- One iteration of the per-link loop (lines 26-40 of
`src/bot/handlers/message_handler.py`): skip an already-posted key,
otherwise rewrite the tag, shorten, substitute the first occurrence of the
original URL, and record the key. The Shortener Client (`bitly.shorten_bitly`)
is abstracted as the function parameter `shorten`; with no credential
configured it is the identity. -/
def procStep (tag : List Char) (shorten : List Char → List Char)
    (st : LoopState) (u : List Char) : LoopState :=
  let k := keyOf u
  if st.store.contains k then st
  else
    { text := replaceFirst st.text u (shorten (replaceAmazonTag tag u))
      store := addKey st.store k
      postedAny := true
      shortenCalls := st.shortenCalls + 1 }

/-- The per-link loop over the extracted URLs, in order of appearance. -/
def procLoop (tag : List Char) (shorten : List Char → List Char)
    (us : List (List Char)) (st : LoopState) : LoopState :=
  us.foldl (procStep tag shorten) st

/-- Outcome of one publish attempt of the messaging transport: success, or
a rate-limit signal (`FloodWaitError`) carrying the required wait. -/
inductive PubResult
  | ok
  | floodWait (w : Nat)
deriving DecidableEq, Repr

/-- Terminal state of the per-message pipeline. -/
inductive Outcome
  | dropped
  | sent
  | rateLimited
deriving DecidableEq, Repr

/-- Observable result of processing one inbound message: terminal state,
final working text, final in-memory dedup set, number of publish attempts
made, the flood-wait sleeps performed, number of Shortener Client calls,
and the text actually published (if any). -/
structure PipeResult where
  outcome : Outcome
  text : List Char
  store : List (List Char)
  publishAttempts : Nat
  floodSleeps : List Nat
  shortenCalls : Nat
  published : Option (List Char)
deriving DecidableEq, Repr

/-- Embedding of `user_client_message_handler` from
`src/bot/handlers/message_handler.py` (the deduplicated draft in
`src/main.py`, `process_message`/`handler`, has the same structure).
`shorten` abstracts the Shortener Client; `rewriteFn` abstracts
`light_rewrite` (at perturbation probability 0 it is the identity);
`script` lists the outcomes the transport would give to successive publish
attempts.  The handler makes at most one attempt: on `FloodWaitError` it
sleeps `e.seconds` and returns without retrying (lines 58-60); the random
2-5 second anti-detection delay before publishing is not a flood sleep and
is not modelled. -/
def processMessage (tag : List Char) (shorten rewriteFn : List Char → List Char)
    (script : List PubResult) (store : List (List Char)) (text : List Char) : PipeResult :=
  let urls := findUrls text
  if urls.isEmpty then
    ⟨.dropped, text, store, 0, [], 0, none⟩
  else
    let st := procLoop tag shorten urls ⟨text, store, false, 0⟩
    if st.postedAny = false then
      ⟨.dropped, st.text, st.store, 0, [], st.shortenCalls, none⟩
    else
      let caption := rewriteFn st.text
      match script with
      | PubResult.floodWait w :: _ =>
        ⟨.rateLimited, caption, st.store, 1, [w], st.shortenCalls, none⟩
      | _ => ⟨.sent, caption, st.store, 1, [], st.shortenCalls, some caption⟩

/-- Embedding of Python's `str.strip()`: remove leading and trailing
whitespace. -/
def stripWS (l : List Char) : List Char :=
  ((l.dropWhile Char.isWhitespace).reverse.dropWhile Char.isWhitespace).reverse

/-- The Dedup Store of `src/bot/utils/persistence.py`: the in-memory set
`_posted_keys` and the durable file `posted_links.txt` as a list of lines. -/
structure Store where
  mem : List (List Char)
  disk : List (List Char)
deriving DecidableEq, Repr

/-- Embedding of `is_posted`. -/
def isPosted (s : Store) (k : List Char) : Bool := s.mem.contains k

/-- Embedding of `mark_as_posted`: add to the in-memory set first, then
append the key as a new line to durable storage; a failing append
(`diskOk = false`) is only logged and does not roll back the in-memory
addition. -/
def markAsPosted (diskOk : Bool) (k : List Char) (s : Store) : Store :=
  { mem := addKey s.mem k
    disk := if diskOk then s.disk ++ [k] else s.disk }

/-- Embedding of `load_posted_keys`: seed the in-memory set with every
stripped non-empty line of the durable file. -/
def loadPostedKeys (lines : List (List Char)) : Store :=
  { mem := lines.foldl (fun m ln => let sl := stripWS ln; if sl.isEmpty then m else addKey m sl) []
    disk := lines }

/-- The keys the durable storage holds: the stripped non-empty lines (what
`load_posted_keys` would read back). -/
def diskKeys (s : Store) : List (List Char) :=
  (s.disk.map stripWS).filter (fun l => !l.isEmpty)

/-- Whether the string contains an occurrence of the affiliate-tag pattern
`[?&]tag=` (case-insensitive), i.e. a tag query parameter. -/
def hasTagOcc : List Char → Bool
  | [] => false
  | c :: r => ((c == '?' || c == '&') && prefCI tagPat r) || hasTagOcc r

/-- Whether the string contains an occurrence of the full valued-utm
pattern `[?&]utm_[^=]+=`. -/
def hasUtmOcc : List Char → Bool
  | [] => false
  | c :: r => ((c == '?' || c == '&') && utmFullAt r) || hasUtmOcc r

/-- Whether the string contains a `utm_`-prefixed query parameter at all
(`[?&]utm_`, valued or not). -/
def hasUtmNameOcc : List Char → Bool
  | [] => false
  | c :: r => ((c == '?' || c == '&') && prefCI utmPat r) || hasUtmNameOcc r

/-- The number of positions at which the tag-parameter pattern `[?&]tag=`
matches. -/
def countTagOcc : List Char → Nat
  | [] => 0
  | c :: r => (if (c == '?' || c == '&') && prefCI tagPat r then 1 else 0) + countTagOcc r

theorem dropWhile_length_le (p : Char → Bool) (l : List Char) :
    (l.dropWhile p).length ≤ l.length := by
  induction l with
  | nil => simp
  | cons c r ih =>
    by_cases h : p c = true
    · simp only [List.dropWhile_cons, h, if_true]
      exact Nat.le_trans ih (Nat.le_succ _)
    · simp [List.dropWhile_cons, h]

theorem dropVal_length_le (l : List Char) : (dropVal l).length ≤ l.length :=
  dropWhile_length_le _ l

theorem afterEq_length_le (l : List Char) : (afterEq l).length ≤ l.length := by
  have h1 := dropWhile_length_le (fun c : Char => !(c == '=')) l
  simp only [afterEq, List.length_drop]
  omega

theorem stripTagF_irrel (f g : Nat) (l : List Char) (hf : l.length ≤ f) (hg : l.length ≤ g) :
    stripTagF f l = stripTagF g l := by
  induction f generalizing g l with
  | zero =>
    have hl : l = [] := List.eq_nil_of_length_eq_zero (Nat.le_zero.mp hf)
    subst hl
    cases g <;> rfl
  | succ n ih =>
    cases l with
    | nil => cases g <;> rfl
    | cons c r =>
      cases g with
      | zero => simp at hg
      | succ m =>
        simp only [List.length_cons] at hf hg
        simp only [stripTagF]
        have hlen : (dropVal (r.drop 4)).length ≤ r.length := by
          have h1 := dropVal_length_le (r.drop 4)
          have h2 : (r.drop 4).length ≤ r.length := by simp [List.length_drop]
          omega
        by_cases hcond : ((c == '?' || c == '&') && prefCI tagPat r) = true
        · rw [if_pos hcond, if_pos hcond]
          exact ih _ _ (by omega) (by omega)
        · rw [if_neg hcond, if_neg hcond]
          exact congrArg (c :: ·) (ih m r (by omega) (by omega))

theorem stripTag_nil : stripTag [] = [] := rfl

theorem stripTag_cons (c : Char) (r : List Char) :
    stripTag (c :: r) =
      if (c == '?' || c == '&') && prefCI tagPat r then stripTag (dropVal (r.drop 4))
      else c :: stripTag r := by
  show stripTagF (r.length + 1) (c :: r) = _
  simp only [stripTagF]
  by_cases hcond : ((c == '?' || c == '&') && prefCI tagPat r) = true
  · rw [if_pos hcond, if_pos hcond]
    apply stripTagF_irrel
    · have h1 := dropVal_length_le (r.drop 4)
      have h2 : (r.drop 4).length ≤ r.length := by simp [List.length_drop]
      omega
    · exact Nat.le_refl _
  · rw [if_neg hcond, if_neg hcond]
    rfl

theorem stripUtmF_irrel (f g : Nat) (l : List Char) (hf : l.length ≤ f) (hg : l.length ≤ g) :
    stripUtmF f l = stripUtmF g l := by
  induction f generalizing g l with
  | zero =>
    have hl : l = [] := List.eq_nil_of_length_eq_zero (Nat.le_zero.mp hf)
    subst hl
    cases g <;> rfl
  | succ n ih =>
    cases l with
    | nil => cases g <;> rfl
    | cons c r =>
      cases g with
      | zero => simp at hg
      | succ m =>
        simp only [List.length_cons] at hf hg
        simp only [stripUtmF]
        have hlen : (dropVal (afterEq (r.drop 4))).length ≤ r.length := by
          have h1 := dropVal_length_le (afterEq (r.drop 4))
          have h2 := afterEq_length_le (r.drop 4)
          have h3 : (r.drop 4).length ≤ r.length := by simp [List.length_drop]
          omega
        by_cases hcond : ((c == '?' || c == '&') && utmFullAt r) = true
        · rw [if_pos hcond, if_pos hcond]
          exact ih _ _ (by omega) (by omega)
        · rw [if_neg hcond, if_neg hcond]
          exact congrArg (c :: ·) (ih m r (by omega) (by omega))

theorem stripUtm_nil : stripUtm [] = [] := rfl

theorem stripUtm_cons (c : Char) (r : List Char) :
    stripUtm (c :: r) =
      if (c == '?' || c == '&') && utmFullAt r then stripUtm (dropVal (afterEq (r.drop 4)))
      else c :: stripUtm r := by
  show stripUtmF (r.length + 1) (c :: r) = _
  simp only [stripUtmF]
  by_cases hcond : ((c == '?' || c == '&') && utmFullAt r) = true
  · rw [if_pos hcond, if_pos hcond]
    apply stripUtmF_irrel
    · have h1 := dropVal_length_le (afterEq (r.drop 4))
      have h2 := afterEq_length_le (r.drop 4)
      have h3 : (r.drop 4).length ≤ r.length := by simp [List.length_drop]
      omega
    · exact Nat.le_refl _
  · rw [if_neg hcond, if_neg hcond]
    rfl

theorem prefCI_length (p l : List Char) (h : prefCI p l = true) : p.length ≤ l.length := by
  induction p generalizing l with
  | nil => simp
  | cons x ps ih =>
    cases l with
    | nil => simp [prefCI] at h
    | cons c cs =>
      simp only [prefCI, Bool.and_eq_true] at h
      simpa using Nat.succ_le_succ (ih cs h.2)

theorem schemeLen_bounds (l : List Char) (n : Nat) (h : schemeLen l = some n) :
    1 ≤ n ∧ n ≤ l.length := by
  unfold schemeLen at h
  by_cases h8 : prefCI ['h', 't', 't', 'p', 's', ':', '/', '/'] l = true
  · rw [if_pos h8] at h
    have hlen := prefCI_length _ _ h8
    have hn : 8 = n := Option.some.inj h
    simp only [List.length_cons, List.length_nil] at hlen
    omega
  · rw [if_neg h8] at h
    by_cases h7 : prefCI ['h', 't', 't', 'p', ':', '/', '/'] l = true
    · rw [if_pos h7] at h
      have hlen := prefCI_length _ _ h7
      have hn : 7 = n := Option.some.inj h
      simp only [List.length_cons, List.length_nil] at hlen
      omega
    · rw [if_neg h7] at h
      exact absurd h (by simp)

theorem tryAmzMatch_rest_lt (l m rest : List Char) (h : tryAmzMatch l = some (m, rest)) :
    rest.length < l.length := by
  cases hs : schemeLen l with
  | none => simp [tryAmzMatch, hs] at h
  | some n =>
    have hb := schemeLen_bounds l n hs
    simp only [tryAmzMatch, hs] at h
    by_cases hok : amazonOk ((l.drop n).takeWhile (fun c => !c.isWhitespace)) = true
    · rw [if_pos hok] at h
      have hr : rest = (l.drop n).drop ((l.drop n).takeWhile (fun c => !c.isWhitespace)).length := by
        have := h
        simp only [Option.some.injEq, Prod.mk.injEq] at this
        exact this.2.symm
      rw [hr]
      simp only [List.length_drop]
      omega
    · rw [if_neg hok] at h
      exact absurd h (by simp)

theorem findUrlsF_irrel (f g : Nat) (l : List Char) (hf : l.length ≤ f) (hg : l.length ≤ g) :
    findUrlsF f l = findUrlsF g l := by
  induction f generalizing g l with
  | zero =>
    have hl : l = [] := List.eq_nil_of_length_eq_zero (Nat.le_zero.mp hf)
    subst hl
    cases g <;> rfl
  | succ n ih =>
    cases l with
    | nil => cases g <;> rfl
    | cons c r =>
      cases g with
      | zero => simp at hg
      | succ m =>
        simp only [List.length_cons] at hf hg
        simp only [findUrlsF]
        cases hm : tryAmzMatch (c :: r) with
        | none =>
          show findUrlsF n r = findUrlsF m r
          exact ih m r (by omega) (by omega)
        | some pr =>
          obtain ⟨mt, rest⟩ := pr
          have hlt := tryAmzMatch_rest_lt _ _ _ hm
          simp only [List.length_cons] at hlt
          show mt :: findUrlsF n rest = mt :: findUrlsF m rest
          exact congrArg (mt :: ·) (ih m rest (by omega) (by omega))

theorem findUrls_nil : findUrls [] = [] := rfl

theorem findUrls_cons (c : Char) (r : List Char) :
    findUrls (c :: r) =
      match tryAmzMatch (c :: r) with
      | some (m, rest) => m :: findUrls rest
      | none => findUrls r := by
  show findUrlsF (r.length + 1) (c :: r) = _
  simp only [findUrlsF]
  cases hm : tryAmzMatch (c :: r) with
  | none => rfl
  | some pr =>
    obtain ⟨mt, rest⟩ := pr
    have hlt := tryAmzMatch_rest_lt _ _ _ hm
    simp only [List.length_cons] at hlt
    show mt :: findUrlsF r.length rest = mt :: findUrls rest
    exact congrArg (mt :: ·) (findUrlsF_irrel r.length rest.length rest (by omega) (by omega))

theorem addKey_contains_self (mem : List (List Char)) (k : List Char) :
    (addKey mem k).contains k = true := by
  unfold addKey
  by_cases h : mem.contains k = true
  · rw [if_pos h]; exact h
  · rw [if_neg h]
    exact List.elem_eq_true_of_mem (by simp)

theorem addKey_contains_mono (mem : List (List Char)) (k k' : List Char)
    (h : mem.contains k' = true) : (addKey mem k).contains k' = true := by
  unfold addKey
  by_cases hc : mem.contains k = true
  · rw [if_pos hc]; exact h
  · rw [if_neg hc]
    exact List.elem_eq_true_of_mem (List.mem_append_left _ (List.mem_of_elem_eq_true h))

theorem procStep_store_mono (tag : List Char) (sh : List Char → List Char)
    (st : LoopState) (u k' : List Char) (h : st.store.contains k' = true) :
    (procStep tag sh st u).store.contains k' = true := by
  simp only [procStep]
  by_cases hc : st.store.contains (keyOf u) = true
  · rw [if_pos hc]; exact h
  · rw [if_neg hc]; exact addKey_contains_mono _ _ _ h

theorem procStep_key_recorded (tag : List Char) (sh : List Char → List Char)
    (st : LoopState) (u : List Char) :
    (procStep tag sh st u).store.contains (keyOf u) = true := by
  simp only [procStep]
  by_cases hc : st.store.contains (keyOf u) = true
  · rw [if_pos hc]; exact hc
  · rw [if_neg hc]; exact addKey_contains_self _ _

theorem procLoop_store_mono (tag : List Char) (sh : List Char → List Char)
    (us : List (List Char)) :
    ∀ (st : LoopState) (k' : List Char), st.store.contains k' = true →
      (procLoop tag sh us st).store.contains k' = true := by
  induction us with
  | nil => intro st k' h; exact h
  | cons u us ih =>
    intro st k' h
    exact ih (procStep tag sh st u) k' (procStep_store_mono tag sh st u k' h)

theorem procLoop_key_recorded (tag : List Char) (sh : List Char → List Char)
    (us : List (List Char)) :
    ∀ (st : LoopState) (u : List Char), u ∈ us →
      (procLoop tag sh us st).store.contains (keyOf u) = true := by
  induction us with
  | nil => intro st u h; cases h
  | cons v us ih =>
    intro st u h
    rcases List.mem_cons.mp h with h1 | h2
    · subst h1
      exact procLoop_store_mono tag sh us (procStep tag sh st u) (keyOf u)
        (procStep_key_recorded tag sh st u)
    · exact ih (procStep tag sh st v) u h2

theorem procLoop_id_of_posted (tag : List Char) (sh : List Char → List Char)
    (us : List (List Char)) :
    ∀ (st : LoopState), (∀ u ∈ us, st.store.contains (keyOf u) = true) →
      procLoop tag sh us st = st := by
  induction us with
  | nil => intro st _; rfl
  | cons v us ih =>
    intro st h
    have hv : procStep tag sh st v = st := by
      simp only [procStep]
      rw [if_pos (h v (by simp))]
    show procLoop tag sh us (procStep tag sh st v) = st
    rw [hv]
    exact ih st (fun u hu => h u (List.mem_cons_of_mem _ hu))

theorem processMessage_store (tag : List Char) (sh rwF : List Char → List Char)
    (script : List PubResult) (store : List (List Char)) (text : List Char) :
    (processMessage tag sh rwF script store text).store
      = if (findUrls text).isEmpty then store
        else (procLoop tag sh (findUrls text) ⟨text, store, false, 0⟩).store := by
  by_cases h1 : (findUrls text).isEmpty = true
  · simp [processMessage, h1]
  · by_cases h2 : (procLoop tag sh (findUrls text) ⟨text, store, false, 0⟩).postedAny = false
    · simp [processMessage, h1, h2]
    · cases script with
      | nil => simp [processMessage, h1, h2]
      | cons p rest => cases p <;> simp [processMessage, h1, h2]

theorem mem_of_mem_takeWhile' (p : Char → Bool) (l : List Char) (x : Char)
    (h : x ∈ l.takeWhile p) : x ∈ l := by
  have h2 : x ∈ l.takeWhile p ++ l.dropWhile p := List.mem_append_left _ h
  rwa [List.takeWhile_append_dropWhile] at h2

theorem mem_of_mem_dropWhile' (p : Char → Bool) (l : List Char) (x : Char)
    (h : x ∈ l.dropWhile p) : x ∈ l := by
  have h2 : x ∈ l.takeWhile p ++ l.dropWhile p := List.mem_append_right _ h
  rwa [List.takeWhile_append_dropWhile] at h2

theorem rstripQA_append (l : List Char) : ∃ t, l = rstripQA l ++ t := by
  refine ⟨(l.reverse.takeWhile (fun c => c == '?' || c == '&')).reverse, ?_⟩
  unfold rstripQA
  calc l = l.reverse.reverse := (List.reverse_reverse l).symm
    _ = (l.reverse.takeWhile (fun c => c == '?' || c == '&')
          ++ l.reverse.dropWhile (fun c => c == '?' || c == '&')).reverse := by
        rw [List.takeWhile_append_dropWhile]
    _ = _ := List.reverse_append _ _

theorem mem_rstripQA (l : List Char) (x : Char) (h : x ∈ rstripQA l) : x ∈ l := by
  rcases rstripQA_append l with ⟨t, ht⟩
  rw [ht]
  exact List.mem_append_left _ h

theorem prefCI_append (p l t : List Char) (h : prefCI p l = true) :
    prefCI p (l ++ t) = true := by
  induction p generalizing l with
  | nil => rfl
  | cons x ps ih =>
    cases l with
    | nil => simp [prefCI] at h
    | cons c cs =>
      simp only [prefCI, Bool.and_eq_true, List.cons_append] at h ⊢
      exact ⟨h.1, ih cs h.2⟩

theorem eqCond_append (m t : List Char) (h : eqCond m = true) : eqCond (m ++ t) = true := by
  cases m with
  | nil => simp [eqCond] at h
  | cons c r =>
    simp only [eqCond, Bool.and_eq_true, List.cons_append] at h ⊢
    refine ⟨h.1, ?_⟩
    have : '=' ∈ r := List.mem_of_elem_eq_true h.2
    exact List.elem_eq_true_of_mem (List.mem_append_left _ this)

theorem utmFullAt_append (m t : List Char) (h : utmFullAt m = true) :
    utmFullAt (m ++ t) = true := by
  simp only [utmFullAt, Bool.and_eq_true] at h ⊢
  refine ⟨prefCI_append _ _ _ h.1, ?_⟩
  have hlen : 4 ≤ m.length := by
    have := prefCI_length utmPat m h.1
    simpa [utmPat] using this
  rw [List.drop_append_of_le_length hlen]
  exact eqCond_append _ _ h.2

theorem hasTagOcc_append_left (x t : List Char) (h : hasTagOcc x = true) :
    hasTagOcc (x ++ t) = true := by
  induction x with
  | nil => simp [hasTagOcc] at h
  | cons c r ih =>
    simp only [hasTagOcc, Bool.or_eq_true, List.cons_append] at h ⊢
    rcases h with h1 | h2
    · left
      simp only [Bool.and_eq_true] at h1 ⊢
      exact ⟨h1.1, prefCI_append _ _ _ h1.2⟩
    · right; exact ih h2

theorem hasTagOcc_append_right (x t : List Char) (h : hasTagOcc t = true) :
    hasTagOcc (x ++ t) = true := by
  induction x with
  | nil => simpa using h
  | cons c r ih =>
    simp only [hasTagOcc, Bool.or_eq_true, List.cons_append]
    right; exact ih

theorem hasUtmOcc_append_left (x t : List Char) (h : hasUtmOcc x = true) :
    hasUtmOcc (x ++ t) = true := by
  induction x with
  | nil => simp [hasUtmOcc] at h
  | cons c r ih =>
    simp only [hasUtmOcc, Bool.or_eq_true, List.cons_append] at h ⊢
    rcases h with h1 | h2
    · left
      simp only [Bool.and_eq_true] at h1 ⊢
      exact ⟨h1.1, utmFullAt_append _ _ h1.2⟩
    · right; exact ih h2

theorem hasTagOcc_drop (l : List Char) (n : Nat) (h : hasTagOcc (l.drop n) = true) :
    hasTagOcc l = true := by
  have h2 : hasTagOcc (l.take n ++ l.drop n) = true := hasTagOcc_append_right _ _ h
  rwa [List.take_append_drop] at h2

theorem hasTagOcc_dropWhile (p : Char → Bool) (l : List Char)
    (h : hasTagOcc (l.dropWhile p) = true) : hasTagOcc l = true := by
  have h2 : hasTagOcc (l.takeWhile p ++ l.dropWhile p) = true := hasTagOcc_append_right _ _ h
  rwa [List.takeWhile_append_dropWhile] at h2

theorem dropVal_shape (m : List Char) : dropVal m = [] ∨ ∃ t, dropVal m = '&' :: t := by
  induction m with
  | nil => left; rfl
  | cons c r ih =>
    by_cases hc : (c == '&') = true
    · right
      have hce : c = '&' := by simpa using hc
      subst hce
      refine ⟨r, ?_⟩
      simp [dropVal, List.dropWhile_cons]
    · have hstep : dropVal (c :: r) = dropVal r := by
        simp [dropVal, List.dropWhile_cons, hc]
      rw [hstep]
      exact ih

theorem stripTag_amp (t : List Char) :
    stripTag ('&' :: t) = [] ∨ ∃ t', stripTag ('&' :: t) = '&' :: t' := by
  rw [stripTag_cons]
  by_cases hc : (('&' == '?' || '&' == '&') && prefCI tagPat t) = true
  · rw [if_pos hc]
    rcases hdv : dropVal (t.drop 4) with _ | ⟨c2, t2⟩
    · rw [stripTag_nil]; left; rfl
    · have hc2 : c2 = '&' := by
        rcases dropVal_shape (t.drop 4) with hn | ⟨t3, ht3⟩
        · rw [hdv] at hn; exact absurd hn (by simp)
        · rw [hdv] at ht3
          exact (List.cons.injEq .. ▸ ht3).1
      subst hc2
      exact stripTag_amp t2
  · rw [if_neg hc]
    right; exact ⟨stripTag t, rfl⟩
termination_by t.length
decreasing_by
  have h1 := dropVal_length_le (t.drop 4)
  rw [hdv] at h1
  have h2 : (t.drop 4).length ≤ t.length := by simp [List.length_drop]
  have h3 : ('&' :: t2 : List Char).length = t2.length + 1 := rfl
  omega

theorem stripTag_ampnil (l : List Char) (h : l = [] ∨ ∃ t, l = '&' :: t) :
    stripTag l = [] ∨ ∃ t', stripTag l = '&' :: t' := by
  rcases h with rfl | ⟨t, rfl⟩
  · left; rfl
  · exact stripTag_amp t

theorem stripUtm_amp (t : List Char) :
    stripUtm ('&' :: t) = [] ∨ ∃ t', stripUtm ('&' :: t) = '&' :: t' := by
  rw [stripUtm_cons]
  by_cases hc : (('&' == '?' || '&' == '&') && utmFullAt t) = true
  · rw [if_pos hc]
    rcases hdv : dropVal (afterEq (t.drop 4)) with _ | ⟨c2, t2⟩
    · rw [stripUtm_nil]; left; rfl
    · have hc2 : c2 = '&' := by
        rcases dropVal_shape (afterEq (t.drop 4)) with hn | ⟨t3, ht3⟩
        · rw [hdv] at hn; exact absurd hn (by simp)
        · rw [hdv] at ht3
          exact (List.cons.injEq .. ▸ ht3).1
      subst hc2
      exact stripUtm_amp t2
  · rw [if_neg hc]
    right; exact ⟨stripUtm t, rfl⟩
termination_by t.length
decreasing_by
  have h1 := dropVal_length_le (afterEq (t.drop 4))
  rw [hdv] at h1
  have h2 := afterEq_length_le (t.drop 4)
  have h3 : (t.drop 4).length ≤ t.length := by simp [List.length_drop]
  have h4 : ('&' :: t2 : List Char).length = t2.length + 1 := rfl
  omega

theorem stripUtm_ampnil (l : List Char) (h : l = [] ∨ ∃ t, l = '&' :: t) :
    stripUtm l = [] ∨ ∃ t', stripUtm l = '&' :: t' := by
  rcases h with rfl | ⟨t, rfl⟩
  · left; rfl
  · exact stripUtm_amp t

theorem prefCI_stripTag (l : List Char) : ∀ (p : List Char),
    (∀ x ∈ p, chEq x '&' = false ∧ chEq x '?' = false) →
    prefCI p (stripTag l) = true → prefCI p l = true := by
  induction l with
  | nil =>
    intro p hp h
    rw [stripTag_nil] at h
    cases p with
    | nil => rfl
    | cons x ps => simp [prefCI] at h
  | cons c r ih =>
    intro p hp h
    rw [stripTag_cons] at h
    by_cases hc : ((c == '?' || c == '&') && prefCI tagPat r) = true
    · rw [if_pos hc] at h
      rcases stripTag_ampnil (dropVal (r.drop 4)) (dropVal_shape _) with hn | ⟨t', ht'⟩
      · rw [hn] at h
        cases p with
        | nil => rfl
        | cons x ps => simp [prefCI] at h
      · rw [ht'] at h
        cases p with
        | nil => rfl
        | cons x ps =>
          exfalso
          simp only [prefCI, Bool.and_eq_true] at h
          have hx := (hp x (by simp)).1
          rw [hx] at h
          exact absurd h.1 (by simp)
    · rw [if_neg hc] at h
      cases p with
      | nil => rfl
      | cons x ps =>
        simp only [prefCI, Bool.and_eq_true] at h ⊢
        exact ⟨h.1, ih ps (fun y hy => hp y (List.mem_cons_of_mem _ hy)) h.2⟩

theorem prefCI_stripUtm (l : List Char) : ∀ (p : List Char),
    (∀ x ∈ p, chEq x '&' = false ∧ chEq x '?' = false) →
    prefCI p (stripUtm l) = true → prefCI p l = true := by
  induction l with
  | nil =>
    intro p hp h
    rw [stripUtm_nil] at h
    cases p with
    | nil => rfl
    | cons x ps => simp [prefCI] at h
  | cons c r ih =>
    intro p hp h
    rw [stripUtm_cons] at h
    by_cases hc : ((c == '?' || c == '&') && utmFullAt r) = true
    · rw [if_pos hc] at h
      rcases stripUtm_ampnil (dropVal (afterEq (r.drop 4))) (dropVal_shape _) with hn | ⟨t', ht'⟩
      · rw [hn] at h
        cases p with
        | nil => rfl
        | cons x ps => simp [prefCI] at h
      · rw [ht'] at h
        cases p with
        | nil => rfl
        | cons x ps =>
          exfalso
          simp only [prefCI, Bool.and_eq_true] at h
          have hx := (hp x (by simp)).1
          rw [hx] at h
          exact absurd h.1 (by simp)
    · rw [if_neg hc] at h
      cases p with
      | nil => rfl
      | cons x ps =>
        simp only [prefCI, Bool.and_eq_true] at h ⊢
        exact ⟨h.1, ih ps (fun y hy => hp y (List.mem_cons_of_mem _ hy)) h.2⟩

theorem hasTagOcc_stripTag (l : List Char) : hasTagOcc (stripTag l) = false := by
  match l with
  | [] => rfl
  | c :: r =>
    rw [stripTag_cons]
    by_cases hc : ((c == '?' || c == '&') && prefCI tagPat r) = true
    · rw [if_pos hc]
      exact hasTagOcc_stripTag (dropVal (r.drop 4))
    · rw [if_neg hc]
      have hrec := hasTagOcc_stripTag r
      simp only [hasTagOcc, hrec, Bool.or_false]
      by_cases hq : (c == '?' || c == '&') = true
      · cases hb2 : prefCI tagPat (stripTag r)
        · simp [hb2]
        · exfalso
          apply hc
          rw [hq, prefCI_stripTag r tagPat (by decide) hb2]
          rfl
      · have hqf : (c == '?' || c == '&') = false := by
          cases hb : (c == '?' || c == '&')
          · rfl
          · exact absurd hb hq
        rw [hqf]
        simp
termination_by l.length
decreasing_by
  · have h1 := dropVal_length_le (r.drop 4)
    have h2 : (r.drop 4).length ≤ r.length := by simp [List.length_drop]
    simp only [List.length_cons]
    omega
  · simp only [List.length_cons]
    omega

theorem mem_stripTag (l : List Char) (x : Char) (h : x ∈ stripTag l) : x ∈ l := by
  match l with
  | [] => rw [stripTag_nil] at h; exact absurd h (by simp)
  | c :: r =>
    rw [stripTag_cons] at h
    by_cases hc : ((c == '?' || c == '&') && prefCI tagPat r) = true
    · rw [if_pos hc] at h
      have h2 := mem_stripTag (dropVal (r.drop 4)) x h
      have h3 : x ∈ r.drop 4 := mem_of_mem_dropWhile' _ _ _ h2
      exact List.mem_cons_of_mem _ (List.mem_of_mem_drop h3)
    · rw [if_neg hc] at h
      rcases List.mem_cons.mp h with rfl | h2
      · exact List.mem_cons_self _ _
      · exact List.mem_cons_of_mem _ (mem_stripTag r x h2)
termination_by l.length
decreasing_by
  · have h1 := dropVal_length_le (r.drop 4)
    have h2 : (r.drop 4).length ≤ r.length := by simp [List.length_drop]
    simp only [List.length_cons]
    omega
  · simp only [List.length_cons]
    omega

theorem mem_stripUtm (l : List Char) (x : Char) (h : x ∈ stripUtm l) : x ∈ l := by
  match l with
  | [] => rw [stripUtm_nil] at h; exact absurd h (by simp)
  | c :: r =>
    rw [stripUtm_cons] at h
    by_cases hc : ((c == '?' || c == '&') && utmFullAt r) = true
    · rw [if_pos hc] at h
      have h2 := mem_stripUtm (dropVal (afterEq (r.drop 4))) x h
      have h3 : x ∈ afterEq (r.drop 4) := mem_of_mem_dropWhile' _ _ _ h2
      have h4 : x ∈ (r.drop 4).dropWhile (fun c => !(c == '=')) := List.mem_of_mem_drop h3
      have h5 : x ∈ r.drop 4 := mem_of_mem_dropWhile' _ _ _ h4
      exact List.mem_cons_of_mem _ (List.mem_of_mem_drop h5)
    · rw [if_neg hc] at h
      rcases List.mem_cons.mp h with rfl | h2
      · exact List.mem_cons_self _ _
      · exact List.mem_cons_of_mem _ (mem_stripUtm r x h2)
termination_by l.length
decreasing_by
  · have h1 := dropVal_length_le (afterEq (r.drop 4))
    have h2 := afterEq_length_le (r.drop 4)
    have h3 : (r.drop 4).length ≤ r.length := by simp [List.length_drop]
    simp only [List.length_cons]
    omega
  · simp only [List.length_cons]
    omega

theorem hasTagOcc_of_stripUtm (l : List Char) (h : hasTagOcc (stripUtm l) = true) :
    hasTagOcc l = true := by
  match l with
  | [] => rw [stripUtm_nil] at h; exact absurd h (by simp [hasTagOcc])
  | c :: r =>
    rw [stripUtm_cons] at h
    by_cases hc : ((c == '?' || c == '&') && utmFullAt r) = true
    · rw [if_pos hc] at h
      have h2 := hasTagOcc_of_stripUtm (dropVal (afterEq (r.drop 4))) h
      have h3 : hasTagOcc (afterEq (r.drop 4)) = true := hasTagOcc_dropWhile _ _ h2
      have h4 : hasTagOcc ((r.drop 4).dropWhile (fun c => !(c == '='))) = true :=
        hasTagOcc_drop _ _ h3
      have h5 : hasTagOcc (r.drop 4) = true := hasTagOcc_dropWhile _ _ h4
      have h6 : hasTagOcc r = true := hasTagOcc_drop _ _ h5
      simp [hasTagOcc, h6]
    · rw [if_neg hc] at h
      simp only [hasTagOcc, Bool.or_eq_true] at h ⊢
      rcases h with h1 | h2
      · left
        simp only [Bool.and_eq_true] at h1 ⊢
        exact ⟨h1.1, prefCI_stripUtm r tagPat (by decide) h1.2⟩
      · right; exact hasTagOcc_of_stripUtm r h2
termination_by l.length
decreasing_by
  · have h1 := dropVal_length_le (afterEq (r.drop 4))
    have h2 := afterEq_length_le (r.drop 4)
    have h3 : (r.drop 4).length ≤ r.length := by simp [List.length_drop]
    simp only [List.length_cons]
    omega
  · simp only [List.length_cons]
    omega

theorem eqCond_of_stripUtm (m : List Char) (h : eqCond (stripUtm m) = true) :
    eqCond m = true := by
  cases m with
  | nil => rw [stripUtm_nil] at h; exact absurd h (by simp [eqCond])
  | cons c r =>
    rw [stripUtm_cons] at h
    by_cases hc : ((c == '?' || c == '&') && utmFullAt r) = true
    · rw [if_pos hc] at h
      rcases stripUtm_ampnil (dropVal (afterEq (r.drop 4))) (dropVal_shape _) with hn | ⟨t', ht'⟩
      · rw [hn] at h
        exact absurd h (by simp [eqCond])
      · rw [ht'] at h
        simp only [eqCond, Bool.and_eq_true] at h ⊢
        constructor
        · have hq : (c == '?') = true ∨ (c == '&') = true := by
            have hc2 := hc
            simp only [Bool.and_eq_true, Bool.or_eq_true] at hc2
            exact hc2.1
          rcases hq with h1 | h1
          · have hce : c = '?' := by simpa using h1
            subst hce; decide
          · have hce : c = '&' := by simpa using h1
            subst hce; decide
        · have hm : '=' ∈ t' := List.mem_of_elem_eq_true h.2
          have hm2 : '=' ∈ stripUtm (dropVal (afterEq (r.drop 4))) := by
            rw [ht']
            exact List.mem_cons_of_mem _ hm
          have hm3 := mem_stripUtm _ _ hm2
          have hm4 : '=' ∈ afterEq (r.drop 4) := mem_of_mem_dropWhile' _ _ _ hm3
          have hm5 : '=' ∈ (r.drop 4).dropWhile (fun c => !(c == '=')) :=
            List.mem_of_mem_drop hm4
          have hm6 : '=' ∈ r.drop 4 := mem_of_mem_dropWhile' _ _ _ hm5
          exact List.elem_eq_true_of_mem (List.mem_of_mem_drop hm6)
    · rw [if_neg hc] at h
      simp only [eqCond, Bool.and_eq_true] at h ⊢
      exact ⟨h.1, List.elem_eq_true_of_mem (mem_stripUtm r '=' (List.mem_of_elem_eq_true h.2))⟩

theorem utmFull_chain_of_stripUtm (m : List Char) : ∀ (p : List Char),
    (∀ x ∈ p, chEq x '&' = false ∧ chEq x '?' = false) →
    prefCI p (stripUtm m) = true → eqCond ((stripUtm m).drop p.length) = true →
    prefCI p m = true ∧ eqCond (m.drop p.length) = true := by
  induction m with
  | nil =>
    intro p hp h1 h2
    rw [stripUtm_nil] at h1 h2
    cases p with
    | nil => exact absurd h2 (by simp [eqCond])
    | cons x ps => simp [prefCI] at h1
  | cons c r ih =>
    intro p hp h1 h2
    cases p with
    | nil =>
      refine ⟨rfl, ?_⟩
      simp only [List.length_nil, List.drop_zero] at h2 ⊢
      exact eqCond_of_stripUtm _ h2
    | cons x ps =>
      rw [stripUtm_cons] at h1 h2
      by_cases hc : ((c == '?' || c == '&') && utmFullAt r) = true
      · rw [if_pos hc] at h1
        rcases stripUtm_ampnil (dropVal (afterEq (r.drop 4))) (dropVal_shape _) with hn | ⟨t', ht'⟩
        · rw [hn] at h1
          simp [prefCI] at h1
        · rw [ht'] at h1
          simp only [prefCI, Bool.and_eq_true] at h1
          have hx := (hp x (by simp)).1
          rw [hx] at h1
          exact absurd h1.1 (by simp)
      · rw [if_neg hc] at h1 h2
        simp only [prefCI, Bool.and_eq_true] at h1
        simp only [List.length_cons, List.drop_succ_cons] at h2
        have hrec := ih ps (fun y hy => hp y (List.mem_cons_of_mem _ hy)) h1.2 h2
        refine ⟨?_, ?_⟩
        · simp only [prefCI, Bool.and_eq_true]
          exact ⟨h1.1, hrec.1⟩
        · simpa [List.length_cons, List.drop_succ_cons] using hrec.2

theorem hasUtmOcc_stripUtm (l : List Char) : hasUtmOcc (stripUtm l) = false := by
  match l with
  | [] => rfl
  | c :: r =>
    rw [stripUtm_cons]
    by_cases hc : ((c == '?' || c == '&') && utmFullAt r) = true
    · rw [if_pos hc]
      exact hasUtmOcc_stripUtm (dropVal (afterEq (r.drop 4)))
    · rw [if_neg hc]
      have hrec := hasUtmOcc_stripUtm r
      simp only [hasUtmOcc, hrec, Bool.or_false]
      by_cases hq : (c == '?' || c == '&') = true
      · cases hb2 : utmFullAt (stripUtm r)
        · simp [hb2]
        · exfalso
          have hsplit : prefCI utmPat (stripUtm r) = true
              ∧ eqCond ((stripUtm r).drop 4) = true := by
            have hb3 := hb2
            simp only [utmFullAt, Bool.and_eq_true] at hb3
            exact hb3
          have hchain := utmFull_chain_of_stripUtm r utmPat (by decide) hsplit.1
            (by simpa [utmPat] using hsplit.2)
          apply hc
          have hfull : utmFullAt r = true := by
            simp only [utmFullAt, Bool.and_eq_true]
            exact ⟨hchain.1, by simpa [utmPat] using hchain.2⟩
          rw [hq, hfull]
          rfl
      · have hqf : (c == '?' || c == '&') = false := by
          cases hb : (c == '?' || c == '&')
          · rfl
          · exact absurd hb hq
        rw [hqf]
        simp
termination_by l.length
decreasing_by
  · have h1 := dropVal_length_le (afterEq (r.drop 4))
    have h2 := afterEq_length_le (r.drop 4)
    have h3 : (r.drop 4).length ≤ r.length := by simp [List.length_drop]
    simp only [List.length_cons]
    omega
  · simp only [List.length_cons]
    omega

theorem stripTag_id_of_no_occ (l : List Char) (h : hasTagOcc l = false) :
    stripTag l = l := by
  induction l with
  | nil => rfl
  | cons c r ih =>
    have h1 : ((c == '?' || c == '&') && prefCI tagPat r) = false := by
      cases hb : ((c == '?' || c == '&') && prefCI tagPat r)
      · rfl
      · exfalso
        have h' := h
        simp only [hasTagOcc, hb, Bool.true_or] at h'
        exact absurd h' (by decide)
    have h2 : hasTagOcc r = false := by
      cases hb : hasTagOcc r
      · rfl
      · exfalso
        have h' := h
        simp only [hasTagOcc, hb, Bool.or_true] at h'
        exact absurd h' (by decide)
    rw [stripTag_cons, if_neg (by rw [h1]; simp), ih h2]

theorem stripUtm_id_of_no_occ (l : List Char) (h : hasUtmOcc l = false) :
    stripUtm l = l := by
  induction l with
  | nil => rfl
  | cons c r ih =>
    have h1 : ((c == '?' || c == '&') && utmFullAt r) = false := by
      cases hb : ((c == '?' || c == '&') && utmFullAt r)
      · rfl
      · exfalso
        have h' := h
        simp only [hasUtmOcc, hb, Bool.true_or] at h'
        exact absurd h' (by decide)
    have h2 : hasUtmOcc r = false := by
      cases hb : hasUtmOcc r
      · rfl
      · exfalso
        have h' := h
        simp only [hasUtmOcc, hb, Bool.or_true] at h'
        exact absurd h' (by decide)
    rw [stripUtm_cons, if_neg (by rw [h1]; simp), ih h2]

theorem contains_false_of_tail (c : Char) (r : List Char) (x : Char)
    (h : ((c :: r).contains x) = false) : r.contains x = false := by
  cases hb : r.contains x
  · rfl
  · exfalso
    have hm : x ∈ c :: r := List.mem_cons_of_mem _ (List.mem_of_elem_eq_true hb)
    have h2 : (c :: r).contains x = true := List.elem_eq_true_of_mem hm
    rw [h] at h2
    exact absurd h2 (by decide)

theorem dropFrag_id_of_no_hash (l : List Char) (h : l.contains '#' = false) :
    dropFrag l = l := by
  induction l with
  | nil => rfl
  | cons c r ih =>
    have hc : ¬(c = '#') := by
      intro hcc
      subst hcc
      have h2 : (('#' :: r).contains '#') = true :=
        List.elem_eq_true_of_mem (List.mem_cons_self '#' r)
      rw [h] at h2
      exact absurd h2 (by decide)
    simp only [dropFrag]
    rw [if_neg hc, ih (contains_false_of_tail _ _ _ h)]

theorem dropFrag_eq_takeWhile (l : List Char) (h : l.contains '\n' = false) :
    dropFrag l = l.takeWhile (fun c => !(c == '#')) := by
  induction l with
  | nil => rfl
  | cons c r ih =>
    have hr : r.contains '\n' = false := contains_false_of_tail _ _ _ h
    by_cases hc : c = '#'
    · subst hc
      have hft : fragTail r = some [] := by
        unfold fragTail
        rw [if_pos hr]
      rw [List.takeWhile_cons_of_neg (by decide)]
      simp only [dropFrag, if_pos rfl, hft]
      simp
    · simp only [dropFrag]
      rw [if_neg hc, List.takeWhile_cons_of_pos (by simpa using hc), ih hr]

theorem dropWhile_idem (p : Char → Bool) (l : List Char) :
    (l.dropWhile p).dropWhile p = l.dropWhile p := by
  induction l with
  | nil => rfl
  | cons c r ih =>
    by_cases hc : p c = true
    · rw [List.dropWhile_cons_of_pos hc]
      exact ih
    · rw [List.dropWhile_cons_of_neg hc, List.dropWhile_cons_of_neg hc]

theorem rstripQA_idem (l : List Char) : rstripQA (rstripQA l) = rstripQA l := by
  unfold rstripQA
  rw [List.reverse_reverse, dropWhile_idem]

theorem hasTagOcc_prefix_false (x t : List Char) (h : hasTagOcc (x ++ t) = false) :
    hasTagOcc x = false := by
  cases hb : hasTagOcc x
  · rfl
  · exact absurd (hasTagOcc_append_left x t hb) (by rw [h]; simp)

theorem hasUtmOcc_prefix_false (x t : List Char) (h : hasUtmOcc (x ++ t) = false) :
    hasUtmOcc x = false := by
  cases hb : hasUtmOcc x
  · rfl
  · exact absurd (hasUtmOcc_append_left x t hb) (by rw [h]; simp)

theorem normalizeUrl_nl_free (u : List Char) (h : u.contains '\n' = false) :
    (stripUtm (stripTag u)).contains '\n' = false := by
  cases hb : (stripUtm (stripTag u)).contains '\n'
  · rfl
  · exfalso
    have hm := List.mem_of_elem_eq_true hb
    have hm2 := mem_stripTag u '\n' (mem_stripUtm _ '\n' hm)
    have h2 : u.contains '\n' = true := List.elem_eq_true_of_mem hm2
    rw [h] at h2
    exact absurd h2 (by decide)

theorem normalizeUrl_no_tagOcc (u : List Char) (h : u.contains '\n' = false) :
    hasTagOcc (normalizeUrl u) = false := by
  have h1 : hasTagOcc (stripUtm (stripTag u)) = false := by
    cases hb : hasTagOcc (stripUtm (stripTag u))
    · rfl
    · exfalso
      have h2 := hasTagOcc_of_stripUtm _ hb
      rw [hasTagOcc_stripTag u] at h2
      exact absurd h2 (by simp)
  have h2 : dropFrag (stripUtm (stripTag u))
      = (stripUtm (stripTag u)).takeWhile (fun c => !(c == '#')) :=
    dropFrag_eq_takeWhile _ (normalizeUrl_nl_free u h)
  have h3 : hasTagOcc ((stripUtm (stripTag u)).takeWhile (fun c => !(c == '#'))) = false := by
    apply hasTagOcc_prefix_false _ ((stripUtm (stripTag u)).dropWhile (fun c => !(c == '#')))
    rw [List.takeWhile_append_dropWhile]
    exact h1
  show hasTagOcc (rstripQA (dropFrag (stripUtm (stripTag u)))) = false
  rw [h2]
  rcases rstripQA_append ((stripUtm (stripTag u)).takeWhile (fun c => !(c == '#'))) with ⟨t, ht⟩
  apply hasTagOcc_prefix_false _ t
  rw [← ht]
  exact h3

theorem normalizeUrl_no_utmOcc (u : List Char) (h : u.contains '\n' = false) :
    hasUtmOcc (normalizeUrl u) = false := by
  have h1 : hasUtmOcc (stripUtm (stripTag u)) = false := hasUtmOcc_stripUtm _
  have h2 : dropFrag (stripUtm (stripTag u))
      = (stripUtm (stripTag u)).takeWhile (fun c => !(c == '#')) :=
    dropFrag_eq_takeWhile _ (normalizeUrl_nl_free u h)
  have h3 : hasUtmOcc ((stripUtm (stripTag u)).takeWhile (fun c => !(c == '#'))) = false := by
    apply hasUtmOcc_prefix_false _ ((stripUtm (stripTag u)).dropWhile (fun c => !(c == '#')))
    rw [List.takeWhile_append_dropWhile]
    exact h1
  show hasUtmOcc (rstripQA (dropFrag (stripUtm (stripTag u)))) = false
  rw [h2]
  rcases rstripQA_append ((stripUtm (stripTag u)).takeWhile (fun c => !(c == '#'))) with ⟨t, ht⟩
  apply hasUtmOcc_prefix_false _ t
  rw [← ht]
  exact h3

theorem normalizeUrl_no_hash (u : List Char) (h : u.contains '\n' = false) :
    (normalizeUrl u).contains '#' = false := by
  show (rstripQA (dropFrag (stripUtm (stripTag u)))).contains '#' = false
  rw [dropFrag_eq_takeWhile _ (normalizeUrl_nl_free u h)]
  cases hb : (rstripQA ((stripUtm (stripTag u)).takeWhile (fun c => !(c == '#')))).contains '#'
  · rfl
  · exfalso
    have hm := List.mem_of_elem_eq_true hb
    have hm2 := mem_rstripQA _ _ hm
    have := List.mem_takeWhile_imp hm2
    simp at this

theorem countTagOcc_zero (l : List Char)
    (h : ∀ c ∈ l, (c == '?') = false ∧ (c == '&') = false) : countTagOcc l = 0 := by
  induction l with
  | nil => rfl
  | cons c r ih =>
    simp only [countTagOcc]
    have h1 := h c (List.mem_cons_self c r)
    rw [show ((c == '?' || c == '&') && prefCI tagPat r) = false from by
      rw [h1.1, h1.2]; rfl]
    simp only [Bool.false_eq_true, if_false, Nat.zero_add]
    exact ih (fun x hx => h x (List.mem_cons_of_mem _ hx))

theorem countTagOcc_clean_append (tag : List Char) (sep : Char)
    (hsep : sep = '?' ∨ sep = '&')
    (htag : ∀ c ∈ tag, (c == '?') = false ∧ (c == '&') = false) :
    ∀ (clean : List Char), hasTagOcc clean = false →
      countTagOcc (clean ++ sep :: 't' :: 'a' :: 'g' :: '=' :: tag) = 1 := by
  intro clean
  induction clean with
  | nil =>
    intro _
    rw [List.nil_append]
    show (if ((sep == '?' || sep == '&') && prefCI tagPat ('t' :: 'a' :: 'g' :: '=' :: tag))
        = true then 1 else 0) + countTagOcc ('t' :: 'a' :: 'g' :: '=' :: tag) = 1
    have hpre : prefCI tagPat ('t' :: 'a' :: 'g' :: '=' :: tag) = true := by
      simp [prefCI, tagPat, chEq]
    have hq : (sep == '?' || sep == '&') = true := by
      rcases hsep with rfl | rfl <;> rfl
    rw [hq, hpre]
    have hfin : (if (true && true) = true then 1 else 0) + 0 = 1 := rfl
    have hz : countTagOcc ('t' :: 'a' :: 'g' :: '=' :: tag) = 0 := by
      apply countTagOcc_zero
      intro c hc
      rcases List.mem_cons.mp hc with rfl | hc
      · exact ⟨by decide, by decide⟩
      rcases List.mem_cons.mp hc with rfl | hc
      · exact ⟨by decide, by decide⟩
      rcases List.mem_cons.mp hc with rfl | hc
      · exact ⟨by decide, by decide⟩
      rcases List.mem_cons.mp hc with rfl | hc
      · exact ⟨by decide, by decide⟩
      · exact htag c hc
    rw [hz]
    exact hfin
  | cons c clean2 ih =>
    intro hocc
    have hocc2 : hasTagOcc clean2 = false := by
      cases hb : hasTagOcc clean2
      · rfl
      · exfalso
        have h' := hocc
        simp only [hasTagOcc, hb, Bool.or_true] at h'
        exact absurd h' (by decide)
    have hnot : ((c == '?' || c == '&') && prefCI tagPat clean2) = false := by
      cases hb : ((c == '?' || c == '&') && prefCI tagPat clean2)
      · rfl
      · exfalso
        have h' := hocc
        simp only [hasTagOcc, hb, Bool.true_or] at h'
        exact absurd h' (by decide)
    rw [List.cons_append]
    show (if ((c == '?' || c == '&')
        && prefCI tagPat (clean2 ++ sep :: 't' :: 'a' :: 'g' :: '=' :: tag)) = true
          then 1 else 0)
      + countTagOcc (clean2 ++ sep :: 't' :: 'a' :: 'g' :: '=' :: tag) = 1
    rw [ih hocc2]
    by_cases hq : (c == '?' || c == '&') = true
    · have hpr : prefCI tagPat clean2 = false := by
        cases hb : prefCI tagPat clean2
        · rfl
        · exfalso
          rw [hq, hb] at hnot
          exact absurd hnot (by decide)
      have hfalse : prefCI tagPat (clean2 ++ sep :: 't' :: 'a' :: 'g' :: '=' :: tag)
          = false := by
        cases clean2 with
        | nil =>
          rcases hsep with rfl | rfl
          · simp only [List.nil_append, tagPat, prefCI]
            rw [show chEq 't' '?' = false from by decide]
            rfl
          · simp only [List.nil_append, tagPat, prefCI]
            rw [show chEq 't' '&' = false from by decide]
            rfl
        | cons a clean3 =>
          cases clean3 with
          | nil =>
            rcases hsep with rfl | rfl
            · simp only [List.cons_append, List.nil_append, tagPat, prefCI]
              rw [show chEq 'a' '?' = false from by decide]
              simp
            · simp only [List.cons_append, List.nil_append, tagPat, prefCI]
              rw [show chEq 'a' '&' = false from by decide]
              simp
          | cons b clean4 =>
            cases clean4 with
            | nil =>
              rcases hsep with rfl | rfl
              · simp only [List.cons_append, List.nil_append, tagPat, prefCI]
                rw [show chEq 'g' '?' = false from by decide]
                simp
              · simp only [List.cons_append, List.nil_append, tagPat, prefCI]
                rw [show chEq 'g' '&' = false from by decide]
                simp
            | cons d clean5 =>
              cases clean5 with
              | nil =>
                rcases hsep with rfl | rfl
                · simp only [List.cons_append, List.nil_append, tagPat, prefCI]
                  rw [show chEq '=' '?' = false from by decide]
                  simp
                · simp only [List.cons_append, List.nil_append, tagPat, prefCI]
                  rw [show chEq '=' '&' = false from by decide]
                  simp
              | cons e rest =>
                simp only [tagPat, prefCI, List.cons_append] at hpr ⊢
                exact hpr
      rw [hfalse]
      simp
    · have hqf : (c == '?' || c == '&') = false := by
        cases hb : (c == '?' || c == '&')
        · rfl
        · exact absurd hb hq
      rw [hqf]
      simp

/-- C4 counterexample: the spec's guarantee "no remaining tracking
parameters" fails — a valueless `utm_` parameter (no `=`) is not matched by
`([?&])utm_[^=]+=[^&]*` and survives the rewrite, so the output still
carries a `utm_`-prefixed parameter. -/
theorem c4_counterexample :
    replaceAmazonTag "myid-21".data "https://www.amazon.in/dp/B0ABCDEFG1?utm_source".data
      = "https://www.amazon.in/dp/B0ABCDEFG1?utm_source&tag=myid-21".data
    ∧ hasUtmNameOcc (replaceAmazonTag "myid-21".data
        "https://www.amazon.in/dp/B0ABCDEFG1?utm_source".data) = true := by
  decide

/-- C4 amended: for every newline-free URL and an affiliate identifier free
of `?`, `&`, `#`, the rewritten URL is the normalized URL plus one appended
`tag=` parameter carrying exactly the configured identifier: it contains
exactly one tag parameter (no duplicates) and no fragment, and the
normalized prefix carries no tag parameter and no valued `utm_` parameter.
Valueless `utm_` parameters, however, survive normalization (see the
counterexample), so the "no remaining tracking parameters" guarantee fails
in general. -/
theorem c4_amended_applyTag (url tag : List Char)
    (hnl : url.contains '\n' = false)
    (htag : ∀ c ∈ tag, (c == '?') = false ∧ (c == '&') = false ∧ (c == '#') = false) :
    replaceAmazonTag tag url
      = normalizeUrl url
        ++ (if (normalizeUrl url).contains '?' then '&' else '?')
          :: 't' :: 'a' :: 'g' :: '=' :: tag
    ∧ countTagOcc (replaceAmazonTag tag url) = 1
    ∧ (replaceAmazonTag tag url).contains '#' = false
    ∧ hasTagOcc (normalizeUrl url) = false
    ∧ hasUtmOcc (normalizeUrl url) = false := by
  refine ⟨rfl, ?_, ?_, normalizeUrl_no_tagOcc url hnl, normalizeUrl_no_utmOcc url hnl⟩
  · show countTagOcc (normalizeUrl url
        ++ (if (normalizeUrl url).contains '?' then '&' else '?')
          :: 't' :: 'a' :: 'g' :: '=' :: tag) = 1
    apply countTagOcc_clean_append tag _ _
      (fun c hc => ⟨(htag c hc).1, (htag c hc).2.1⟩)
      (normalizeUrl url) (normalizeUrl_no_tagOcc url hnl)
    by_cases hq : (normalizeUrl url).contains '?' = true
    · rw [if_pos hq]; right; rfl
    · rw [if_neg hq]; left; rfl
  · show ((normalizeUrl url
        ++ (if (normalizeUrl url).contains '?' then '&' else '?')
          :: 't' :: 'a' :: 'g' :: '=' :: tag).contains '#') = false
    cases hb : ((normalizeUrl url
        ++ (if (normalizeUrl url).contains '?' then '&' else '?')
          :: 't' :: 'a' :: 'g' :: '=' :: tag).contains '#')
    · rfl
    · exfalso
      have hm := List.mem_of_elem_eq_true hb
      rcases List.mem_append.mp hm with hA | hB
      · have h2 : (normalizeUrl url).contains '#' = true := List.elem_eq_true_of_mem hA
        rw [normalizeUrl_no_hash url hnl] at h2
        exact absurd h2 (by decide)
      · rcases List.mem_cons.mp hB with hsep | hB
        · by_cases hq : (normalizeUrl url).contains '?' = true
          · rw [if_pos hq] at hsep; exact absurd hsep (by decide)
          · rw [if_neg hq] at hsep; exact absurd hsep (by decide)
        rcases List.mem_cons.mp hB with he | hB
        · exact absurd he (by decide)
        rcases List.mem_cons.mp hB with he | hB
        · exact absurd he (by decide)
        rcases List.mem_cons.mp hB with he | hB
        · exact absurd he (by decide)
        rcases List.mem_cons.mp hB with he | hB
        · exact absurd he (by decide)
        · exact absurd (htag _ hB).2.2 (by simp)

/-- Witness for `c4_amended_applyTag` at the concrete counterexample URL:
the hypotheses hold and the conjunction evaluates. -/
theorem c4_amended_applyTag_witness :
    countTagOcc (replaceAmazonTag "myid-21".data
      "https://www.amazon.in/dp/B0ABCDEFG1?utm_source&tag=old-20#frag".data) = 1
    ∧ (replaceAmazonTag "myid-21".data
        "https://www.amazon.in/dp/B0ABCDEFG1?utm_source&tag=old-20#frag".data).contains '#'
        = false := by
  have h := c4_amended_applyTag
    "https://www.amazon.in/dp/B0ABCDEFG1?utm_source&tag=old-20#frag".data
    "myid-21".data (by decide) (by decide)
  exact ⟨h.2.1, h.2.2.1⟩

/-- C7: normalization is idempotent on every URL (URLs contain no newline;
with a newline in the string the fragment regex `#.*$` can fail to remove a
`#` and idempotence can fail, but such a string is not a URL and can never
reach `normalize_url_remove_tracking` from the extractor, whose matches are
whitespace-free). -/
theorem c7_normalize_idempotent (u : List Char) (h : u.contains '\n' = false) :
    normalizeUrl (normalizeUrl u) = normalizeUrl u := by
  have h1 : stripTag (normalizeUrl u) = normalizeUrl u :=
    stripTag_id_of_no_occ _ (normalizeUrl_no_tagOcc u h)
  have h2 : stripUtm (normalizeUrl u) = normalizeUrl u :=
    stripUtm_id_of_no_occ _ (normalizeUrl_no_utmOcc u h)
  have h3 : dropFrag (normalizeUrl u) = normalizeUrl u :=
    dropFrag_id_of_no_hash _ (normalizeUrl_no_hash u h)
  show rstripQA (dropFrag (stripUtm (stripTag (normalizeUrl u)))) = normalizeUrl u
  rw [h1, h2, h3]
  show rstripQA (rstripQA (dropFrag (stripUtm (stripTag u)))) = normalizeUrl u
  rw [rstripQA_idem]
  rfl

/-- Witness for `c7_normalize_idempotent` at a concrete URL. -/
theorem c7_normalize_idempotent_witness :
    normalizeUrl (normalizeUrl
        "https://www.amazon.in/dp/B0ABCDEFG1?tag=old-20&utm_a=1&x=2#frag".data)
      = normalizeUrl "https://www.amazon.in/dp/B0ABCDEFG1?tag=old-20&utm_a=1&x=2#frag".data :=
  c7_normalize_idempotent
    "https://www.amazon.in/dp/B0ABCDEFG1?tag=old-20&utm_a=1&x=2#frag".data (by decide)

/-- C1: on the spec's concrete scenario — inbound text
`"Check this https://www.amazon.in/dp/B0ABCDEFG1?tag=old-20 deal!"`,
affiliate identifier `myid-21`, no shortening credential (so the Shortener
Client is the identity), perturbation probability 0 (so `light_rewrite` is
the identity), empty Dedup Store — the pipeline publishes exactly
`"Check this https://www.amazon.in/dp/B0ABCDEFG1?tag=myid-21 deal!"` and
afterwards the Dedup Store contains the key `B0ABCDEFG1`. -/
theorem c1_end_to_end_scenario :
    (processMessage "myid-21".data id id [PubResult.ok] []
        "Check this https://www.amazon.in/dp/B0ABCDEFG1?tag=old-20 deal!".data).published
      = some "Check this https://www.amazon.in/dp/B0ABCDEFG1?tag=myid-21 deal!".data
    ∧ (processMessage "myid-21".data id id [PubResult.ok] []
        "Check this https://www.amazon.in/dp/B0ABCDEFG1?tag=old-20 deal!".data).store.contains
        "B0ABCDEFG1".data = true := by
  decide

/-- C8: a message whose text contains no retailer-qualified URL is dropped
with no side effects — no Shortener Client call, no Dedup Store mutation,
no publish attempt. -/
theorem c8_no_link_frame (tag : List Char) (sh rwF : List Char → List Char)
    (script : List PubResult) (store : List (List Char)) (text : List Char)
    (h : findUrls text = []) :
    processMessage tag sh rwF script store text
      = ⟨.dropped, text, store, 0, [], 0, none⟩ := by
  simp [processMessage, h]

/-- Witness for `c8_no_link_frame` at a concrete link-free message. -/
theorem c8_no_link_frame_witness :
    processMessage "myid-21".data id id [PubResult.ok] [] "hello there".data
      = ⟨.dropped, "hello there".data, [], 0, [], 0, none⟩ :=
  c8_no_link_frame "myid-21".data id id [PubResult.ok] [] "hello there".data (by decide)

/-- C2 counterexample: on the spec's scenario with publish outcomes
"rate-limit with wait 5, then success", the handler makes exactly one
publish attempt, sleeps 5, and returns without publishing — the claimed
suspend-and-retry (which would make a second, successful attempt) does not
exist in the code (`except FloodWaitError` only sleeps and falls through,
`src/bot/handlers/message_handler.py` lines 58-60, `src/main.py` 209-211). -/
theorem c2_counterexample :
    (processMessage "myid-21".data id id [PubResult.floodWait 5, PubResult.ok] []
        "Check this https://www.amazon.in/dp/B0ABCDEFG1?tag=old-20 deal!".data).published = none
    ∧ (processMessage "myid-21".data id id [PubResult.floodWait 5, PubResult.ok] []
        "Check this https://www.amazon.in/dp/B0ABCDEFG1?tag=old-20 deal!".data).publishAttempts = 1
    ∧ (processMessage "myid-21".data id id [PubResult.floodWait 5, PubResult.ok] []
        "Check this https://www.amazon.in/dp/B0ABCDEFG1?tag=old-20 deal!".data).floodSleeps = [5] := by
  decide

/-- C2 amended: whenever the publish attempt signals a rate-limit condition
with required wait `w`, the pipeline suspends for exactly `[w]` (when the
attempt was reached at all) and then abandons the message: at most one
publish attempt is made, and nothing is published. -/
theorem c2_amended_no_retry (tag : List Char) (sh rwF : List Char → List Char)
    (rest : List PubResult) (w : Nat) (store : List (List Char)) (text : List Char) :
    (processMessage tag sh rwF (PubResult.floodWait w :: rest) store text).published = none
    ∧ (processMessage tag sh rwF (PubResult.floodWait w :: rest) store text).publishAttempts ≤ 1
    ∧ ((processMessage tag sh rwF (PubResult.floodWait w :: rest) store text).floodSleeps = []
       ∨ (processMessage tag sh rwF (PubResult.floodWait w :: rest) store text).floodSleeps = [w]) := by
  by_cases h1 : (findUrls text).isEmpty = true
  · simp [processMessage, h1]
  · by_cases h2 : (procLoop tag sh (findUrls text) ⟨text, store, false, 0⟩).postedAny = false
    · simp [processMessage, h1, h2]
    · simp [processMessage, h1, h2]

/-- C9 counterexample: the two tag-rewrite drafts disagree on a plain
product URL — `bot/utils/amazon.py` appends `?tag=myid-21` while the
`main.py` draft appends `?myid-21` (no `tag=` parameter name). -/
theorem c9_counterexample :
    replaceAmazonTag "myid-21".data "https://www.amazon.in/dp/B0ABCDEFG1".data
      ≠ replaceAmazonTagMain "myid-21".data "https://www.amazon.in/dp/B0ABCDEFG1".data := by
  decide

/-- C9 amended: the two drafts share the normalization and the `&`/`?`
separator choice, and differ exactly by the missing `tag=` parameter name:
`main.py`'s draft run with `AFFILIATE_TAG` set to `tag=` ++ id coincides
with the `bot/utils/amazon.py` implementation run with the identifier
alone. With the same identifier the outputs differ (see the
counterexample). -/
theorem c9_amended_drafts_differ_by_tag_prefix (tag url : List Char) :
    replaceAmazonTagMain ('t' :: 'a' :: 'g' :: '=' :: tag) url = replaceAmazonTag tag url := rfl

/-- C3: per-message idempotence. Whatever the Dedup Store held before, a
second pass of the pipeline over the same message text, starting from the
store state the first pass left behind, is dropped: nothing is published,
the store is not mutated, the working text is unchanged, no Shortener
Client call and no publish attempt is made. (The second pass may even use
different affiliate tag, shortener, rewriter and transport outcomes; keys
do not depend on them.) -/
theorem c3_second_pass_dropped (tag1 tag2 : List Char) (sh1 sh2 rw1 rw2 : List Char → List Char)
    (script1 script2 : List PubResult) (store : List (List Char)) (text : List Char) :
    processMessage tag2 sh2 rw2 script2
        (processMessage tag1 sh1 rw1 script1 store text).store text
      = ⟨.dropped, text, (processMessage tag1 sh1 rw1 script1 store text).store,
          0, [], 0, none⟩ := by
  by_cases h1 : (findUrls text).isEmpty = true
  · have hs : (processMessage tag1 sh1 rw1 script1 store text).store = store := by
      rw [processMessage_store, if_pos h1]
    rw [hs]
    simp [processMessage, h1]
  · have hall : ∀ u ∈ findUrls text,
        ((processMessage tag1 sh1 rw1 script1 store text).store).contains (keyOf u) = true := by
      intro u hu
      rw [processMessage_store, if_neg h1]
      exact procLoop_key_recorded tag1 sh1 (findUrls text) _ u hu
    set s1 := (processMessage tag1 sh1 rw1 script1 store text).store with hs1
    have hloop : procLoop tag2 sh2 (findUrls text) ⟨text, s1, false, 0⟩
        = ⟨text, s1, false, 0⟩ :=
      procLoop_id_of_posted tag2 sh2 (findUrls text) _ (fun u hu => hall u hu)
    simp [processMessage, h1, hloop]

/-- C10: single substitution per key within one message. When the head URL's
key is new and every further URL occurrence in the message derives the same
key, the per-link loop rewrites only the first occurrence (one
`replaceFirst`, one Shortener Client call, one key recorded); every later
occurrence is skipped, leaving its text verbatim. -/
theorem c10_single_substitution (tag : List Char) (sh : List Char → List Char)
    (st : LoopState) (u : List Char) (us : List (List Char))
    (h1 : st.store.contains (keyOf u) = false)
    (h2 : ∀ v ∈ us, keyOf v = keyOf u) :
    procLoop tag sh (u :: us) st
      = { text := replaceFirst st.text u (sh (replaceAmazonTag tag u))
          store := addKey st.store (keyOf u)
          postedAny := true
          shortenCalls := st.shortenCalls + 1 } := by
  have hstep : procStep tag sh st u
      = { text := replaceFirst st.text u (sh (replaceAmazonTag tag u))
          store := addKey st.store (keyOf u)
          postedAny := true
          shortenCalls := st.shortenCalls + 1 } := by
    simp only [procStep]
    have hne : ¬(st.store.contains (keyOf u) = true) := by
      rw [h1]; simp
    rw [if_neg hne]
  show procLoop tag sh us (procStep tag sh st u) = _
  rw [hstep]
  apply procLoop_id_of_posted
  intro v hv
  rw [h2 v hv]
  exact addKey_contains_self _ _

/-- Witness for `c10_single_substitution`: a message holding the same
product URL twice is published with only the first occurrence rewritten;
the second stays verbatim with its original query parameters. -/
theorem c10_single_substitution_witness :
    procLoop "myid-21".data id
      ["https://www.amazon.in/dp/B0ABCDEFG1?tag=old-20".data,
       "https://www.amazon.in/dp/B0ABCDEFG1?tag=old-20".data]
      ⟨"A https://www.amazon.in/dp/B0ABCDEFG1?tag=old-20 B https://www.amazon.in/dp/B0ABCDEFG1?tag=old-20 C".data,
        [], false, 0⟩
      = ⟨"A https://www.amazon.in/dp/B0ABCDEFG1?tag=myid-21 B https://www.amazon.in/dp/B0ABCDEFG1?tag=old-20 C".data,
          ["B0ABCDEFG1".data], true, 1⟩ := by
  have h := c10_single_substitution "myid-21".data id
    ⟨"A https://www.amazon.in/dp/B0ABCDEFG1?tag=old-20 B https://www.amazon.in/dp/B0ABCDEFG1?tag=old-20 C".data,
      [], false, 0⟩
    "https://www.amazon.in/dp/B0ABCDEFG1?tag=old-20".data
    ["https://www.amazon.in/dp/B0ABCDEFG1?tag=old-20".data]
    (by decide) (by decide)
  exact h.trans (by decide)

/-- C5 counterexample: two URLs for the same product (`/p` with parameter
`x=1`) that differ only in an affiliate-tag tracking parameter derive
different Product Identity keys, because the tag substitution deletes the
matched `?` separator: the keys are `https://www.amazon.in/p&x=1` and
`https://www.amazon.in/p?x=1`. -/
theorem c5_counterexample :
    keyOf "https://www.amazon.in/p?tag=a-20&x=1".data
      ≠ keyOf "https://www.amazon.in/p?x=1".data := by
  decide

/-- C5 amended: the key is the extracted 10-character product code
upper-cased whenever a code is extractable, so any two URLs with the same
extractable code share one key; but for URLs without an extractable code
full tracking-parameter invariance fails (see the counterexample), because
removing a tag parameter in first query position leaves the next parameter
behind `&` instead of `?`. -/
theorem c5_amended_key_normalization :
    (∀ (u a : List Char), findAsinRaw u = some a → keyOf u = a.map Char.toUpper)
    ∧ (∀ (u1 u2 a : List Char), getAsin u1 = some a → getAsin u2 = some a →
        keyOf u1 = keyOf u2) := by
  constructor
  · intro u a h
    simp only [keyOf, getAsin, h, Option.map_some', Option.getD_some]
  · intro u1 u2 a h1 h2
    simp only [keyOf, h1, h2, Option.getD_some]

/-- Witness for `c5_amended_key_normalization`: a lower-case `/dp/` code is
upper-cased into the key. -/
theorem c5_amended_key_normalization_witness :
    keyOf "https://www.amazon.in/dp/b0abcdefg1?tag=x".data = "B0ABCDEFG1".data := by
  have h := c5_amended_key_normalization.1 "https://www.amazon.in/dp/b0abcdefg1?tag=x".data
    "b0abcdefg1".data (by decide)
  exact h.trans (by decide)

theorem stripWS_of_no_ws (k : List Char) (h : ∀ c ∈ k, c.isWhitespace = false) :
    stripWS k = k := by
  have h1 : k.dropWhile Char.isWhitespace = k := by
    cases k with
    | nil => rfl
    | cons c r =>
      rw [List.dropWhile_cons_of_neg]
      simp [h c (by simp)]
  have h2 : k.reverse.dropWhile Char.isWhitespace = k.reverse := by
    cases hk : k.reverse with
    | nil => rfl
    | cons c r =>
      rw [List.dropWhile_cons_of_neg]
      have hc : c ∈ k := by
        rw [← List.mem_reverse, hk]
        simp
      simp [h c hc]
  unfold stripWS
  rw [h1, h2, List.reverse_reverse]

theorem load_fold_mono (ls : List (List Char)) :
    ∀ (m : List (List Char)) (k : List Char), m.contains k = true →
      (ls.foldl (fun m ln => let sl := stripWS ln; if sl.isEmpty then m else addKey m sl)
        m).contains k = true := by
  induction ls with
  | nil => intro m k h; exact h
  | cons ln ls ih =>
    intro m k h
    show (ls.foldl _ (if (stripWS ln).isEmpty then m else addKey m (stripWS ln))).contains k = true
    apply ih
    by_cases he : (stripWS ln).isEmpty = true
    · rw [if_pos he]; exact h
    · rw [if_neg he]; exact addKey_contains_mono _ _ _ h

theorem load_fold_key (ls : List (List Char)) :
    ∀ (m : List (List Char)) (d : List Char), d ∈ ls → (stripWS d).isEmpty = false →
      (ls.foldl (fun m ln => let sl := stripWS ln; if sl.isEmpty then m else addKey m sl)
        m).contains (stripWS d) = true := by
  induction ls with
  | nil => intro m d h; cases h
  | cons ln ls ih =>
    intro m d h hne
    rcases List.mem_cons.mp h with h1 | h2
    · subst h1
      show (ls.foldl _ (if (stripWS d).isEmpty then m else addKey m (stripWS d))).contains
        (stripWS d) = true
      apply load_fold_mono
      rw [if_neg (by simp [hne])]
      exact addKey_contains_self _ _
    · exact ih _ d h2 hne

/-- C6: Dedup Store non-rollback invariant. After `mark_as_posted`, the
in-memory set contains the key and `is_posted` answers true even when the
durable append failed (`diskOk = false`), and the failure leaves the
durable file untouched; no store operation removes a key; the in-memory
superset-of-durable-contents invariant is preserved by every
`mark_as_posted` (for the whitespace-free keys the pipeline produces) and
established by the startup `load_posted_keys`. -/
theorem c6_store_non_rollback :
    ∀ (diskOk : Bool) (k : List Char) (s : Store),
      isPosted (markAsPosted diskOk k s) k = true
      ∧ (∀ k', isPosted s k' = true → isPosted (markAsPosted diskOk k s) k' = true)
      ∧ (markAsPosted false k s).disk = s.disk
      ∧ ((∀ c ∈ k, c.isWhitespace = false) →
          (∀ d ∈ diskKeys s, s.mem.contains d = true) →
          ∀ d ∈ diskKeys (markAsPosted diskOk k s),
            (markAsPosted diskOk k s).mem.contains d = true)
      ∧ (∀ lines, ∀ d ∈ diskKeys (loadPostedKeys lines),
          (loadPostedKeys lines).mem.contains d = true) := by
  intro diskOk k s
  refine ⟨addKey_contains_self _ _, fun k' h => addKey_contains_mono _ _ _ h, rfl, ?_, ?_⟩
  · intro hws hsup d hd
    show (addKey s.mem k).contains d = true
    cases diskOk with
    | false =>
      exact addKey_contains_mono _ _ _ (hsup d hd)
    | true =>
      have hd2 : d ∈ ((s.disk.map stripWS).filter (fun l => !l.isEmpty))
          ++ (([k].map stripWS).filter (fun l => !l.isEmpty)) := by
        rw [← List.filter_append, ← List.map_append]
        simpa [diskKeys, markAsPosted] using hd
      rcases List.mem_append.mp hd2 with hA | hB
      · exact addKey_contains_mono _ _ _ (hsup d hA)
      · have hk : d = stripWS k := by
          rcases List.mem_filter.mp hB with ⟨hm, _⟩
          simpa using hm
        rw [hk, stripWS_of_no_ws k hws]
        exact addKey_contains_self _ _
  · intro lines d hd
    simp only [diskKeys, loadPostedKeys] at hd ⊢
    rcases List.mem_filter.mp hd with ⟨hm, hne⟩
    rcases List.mem_map.mp hm with ⟨ln, hln, hstr⟩
    subst hstr
    apply load_fold_key
    · exact hln
    · simpa using hne

/-- Witness for `c6_store_non_rollback`: a concrete failed-append record
still answers membership, and the superset invariant holds concretely. -/
theorem c6_store_non_rollback_witness :
    isPosted (markAsPosted false "B0ABCDEFG1".data (loadPostedKeys ["OLDKEY9876".data]))
      "B0ABCDEFG1".data = true
    ∧ (∀ d ∈ diskKeys (markAsPosted false "B0ABCDEFG1".data
          (loadPostedKeys ["OLDKEY9876".data])),
        (markAsPosted false "B0ABCDEFG1".data
          (loadPostedKeys ["OLDKEY9876".data])).mem.contains d = true) :=
  ⟨(c6_store_non_rollback false "B0ABCDEFG1".data (loadPostedKeys ["OLDKEY9876".data])).1,
    (c6_store_non_rollback false "B0ABCDEFG1".data
      (loadPostedKeys ["OLDKEY9876".data])).2.2.2.1 (by decide) (by decide)⟩

end AffBot
